import Mathlib

/-!
Shallow embedding of `lipa-engine/src/lib.rs`, a wasm module exporting
`greet` and `compute_physics_step` and importing a host callback `alert`.

32-bit floats are modelled as their bit patterns (`Nat < 2^32`) with
IEEE-754 binary32 semantics: Rust's `f32` multiplication is IEEE-754
round-to-nearest, ties-to-even, which is spelled out below on the
(sign, significand, exponent) decomposition of the bit patterns.
-/

set_option maxRecDepth 8000

namespace LipaEngine

/-- Sign bit of a binary32 bit pattern. -/
def f32sign (b : Nat) : Nat := b / 2 ^ 31 % 2

/-- Biased exponent field (8 bits) of a binary32 bit pattern. -/
def f32exp (b : Nat) : Nat := b / 2 ^ 23 % 2 ^ 8

/-- Fraction field (23 bits) of a binary32 bit pattern. -/
def f32frac (b : Nat) : Nat := b % 2 ^ 23

def f32isNaN (b : Nat) : Bool := f32exp b == 255 && f32frac b != 0

def f32isInf (b : Nat) : Bool := f32exp b == 255 && f32frac b == 0

def f32isZero (b : Nat) : Bool := f32exp b == 0 && f32frac b == 0

def f32isFinite (b : Nat) : Bool := f32exp b != 255

/-- Integral significand of a finite binary32 value (with the hidden bit
for normal numbers). -/
def f32sig (b : Nat) : Nat :=
  if f32exp b = 0 then f32frac b else 2 ^ 23 + f32frac b

/-- Power-of-two scale of a finite binary32 value: the value is
`(-1)^sign * f32sig b * 2^(f32expVal b)`. -/
def f32expVal (b : Nat) : Int :=
  (if f32exp b = 0 then 1 else (f32exp b : Int)) - 150

/-- Assemble a bit pattern from sign, biased exponent and fraction fields. -/
def packF32 (s e m : Nat) : Nat := s * 2 ^ 31 + e * 2 ^ 23 + m

/-- The canonical quiet NaN bit pattern. -/
def qNaN : Nat := 0x7FC00000

/-- `n / d` rounded to the nearest integer, ties to even. -/
def rneDiv (n d : Nat) : Nat :=
  if 2 * (n % d) > d ∨ (2 * (n % d) = d ∧ n / d % 2 = 1) then n / d + 1
  else n / d

/-- Fuel-driven floor of the base-2 logarithm (kernel-reducible, unlike
the well-founded `Nat.log2`). Correct whenever `n < 2 ^ fuel`. -/
def log2aux : Nat → Nat → Nat
  | 0, _ => 0
  | fuel + 1, n => if 2 ≤ n then log2aux fuel (n / 2) + 1 else 0

/-- Floor of the base-2 logarithm, valid for `n < 2 ^ 400`. -/
def nlog2 (n : Nat) : Nat := log2aux 400 n

/-- Pack a rounded integral significand `q < 2 ^ 24` with quantum
exponent `Q` as a zero, subnormal, normal or overflow-to-infinity
bit pattern with sign `s`. -/
def packRounded (s q : Nat) (Q : Int) : Nat :=
  if q = 0 then packF32 s 0 0
  else if q < 2 ^ 23 then packF32 s 0 q
  else if 255 ≤ Q + 150 then packF32 s 255 0
  else packF32 s (Q + 150).toNat (q - 2 ^ 23)

/-- Final encoding step of round-to-nearest-even: `q0` is the rounded
integral significand for quantum `2 ^ Q0`; renormalise a carry-out,
then pack. -/
def encodeRounded (s q0 : Nat) (Q0 : Int) : Nat :=
  if 2 ^ 24 ≤ q0 then packRounded s (q0 / 2) (Q0 + 1)
  else packRounded s q0 Q0

/-- Round the positive real `P * 2 ^ expP` (with `P` a positive integer)
to the nearest binary32 value, ties to even, attaching sign bit `s`. -/
def roundSigExp (s P : Nat) (expP : Int) : Nat :=
  let E : Int := expP + nlog2 P
  let Q : Int := max (E - 23) (-149)
  let q : Nat :=
    if expP ≤ Q then rneDiv P (2 ^ (Q - expP).toNat)
    else P * 2 ^ ((expP - Q).toNat)
  encodeRounded s q Q

/-- IEEE-754 binary32 multiplication (round to nearest, ties to even) on
bit patterns; NaN results take the canonical quiet NaN pattern. -/
def fmul32 (a b : Nat) : Nat :=
  let s := (f32sign a + f32sign b) % 2
  if f32isNaN a ∨ f32isNaN b then qNaN
  else if f32isInf a ∨ f32isInf b then
    if f32isZero a ∨ f32isZero b then qNaN else packF32 s 255 0
  else if f32isZero a ∨ f32isZero b then packF32 s 0 0
  else roundSigExp s (f32sig a * f32sig b) (f32expVal a + f32expVal b)

/-- Round the positive rational `num / den` to the nearest binary32
value, ties to even (this is how a Rust decimal `f32` literal such as
`9.81` is compiled to a bit pattern). -/
def roundPosRatToF32 (num den : Nat) : Nat :=
  if num = 0 ∨ den = 0 then 0
  else
    let E : Int := (nlog2 (num * 2 ^ 160 / den) : Int) - 160
    let Q : Int := max (E - 23) (-149)
    let q : Nat :=
      if Q ≤ 0 then rneDiv (num * 2 ^ (-Q).toNat) den
      else rneDiv num (den * 2 ^ Q.toNat)
    encodeRounded 0 q Q

/-- The `f32` literal `9.81` from `dt * 9.81` in the source, compiled by
rounding the decimal 9.81 = 981/100 to the nearest binary32. -/
def grav : Nat := roundPosRatToF32 981 100

/-- `pub fn compute_physics_step(dt: f32) -> f32 { dt * 9.81 }`,
on bit patterns. -/
def compute_physics_step (dt : Nat) : Nat := fmul32 dt grav

/-- `pub fn greet(name: &str) -> String`:
`format!("Hello, {}! This message is computed in Rust 🦀", name)`. -/
def greet (name : String) : String :=
  "Hello, " ++ name ++ "! This message is computed in Rust 🦀"

/-- The taxonomy of recoverable errors at the boundary: exactly one kind. -/
inductive EncodingError where
  | invalidUtf8 : EncodingError
deriving DecidableEq, Repr

/-- Modelled from the spec: host→module text marshaling ("validates it is
well-formed character data before use") works on the raw byte sequence the
host supplies; this is the wasm-bindgen glue, which is not under `src/`.
UTF-8 decoder automaton: `need` continuation bytes are still expected,
`acc` is the partial scalar and `lo` the smallest scalar the sequence is
allowed to produce (the shortest-form bound). Returns the list of unicode
scalar values, or `none` when the bytes are not well-formed UTF-8
(truncated sequences, bad continuation bytes, overlong forms, surrogates
and out-of-range values are all rejected). -/
def utf8Go : Nat → Nat → Nat → List Nat → Option (List Nat)
  | 0, _, _, [] => some []
  | 0, _, _, b :: bs =>
    if b < 0x80 then (utf8Go 0 0 0 bs).map (b :: ·)
    else if 0xC0 ≤ b ∧ b ≤ 0xDF then utf8Go 1 (b - 0xC0) 0x80 bs
    else if 0xE0 ≤ b ∧ b ≤ 0xEF then utf8Go 2 (b - 0xE0) 0x800 bs
    else if 0xF0 ≤ b ∧ b ≤ 0xF7 then utf8Go 3 (b - 0xF0) 0x10000 bs
    else none
  | _ + 1, _, _, [] => none
  | need + 1, acc, lo, b :: bs =>
    if 0x80 ≤ b ∧ b ≤ 0xBF then
      if need = 0 then
        if lo ≤ acc * 64 + (b - 0x80) ∧ acc * 64 + (b - 0x80) < 0x110000 ∧
            (acc * 64 + (b - 0x80) < 0xD800 ∨ 0xDFFF < acc * 64 + (b - 0x80)) then
          (utf8Go 0 0 0 bs).map ((acc * 64 + (b - 0x80)) :: ·)
        else none
      else utf8Go need (acc * 64 + (b - 0x80)) lo bs
    else none

/-- Entry point of the decoder: no pending sequence. -/
def decodeUtf8 (l : List Nat) : Option (List Nat) := utf8Go 0 0 0 l

/-- UTF-8 encoding of one unicode scalar value (the byte sequence Rust's
`String`/`&str` uses for a character). -/
def encodeChar (v : Nat) : List Nat :=
  if v < 0x80 then [v]
  else if v < 0x800 then [0xC0 + v / 64, 0x80 + v % 64]
  else if v < 0x10000 then
    [0xE0 + v / 4096, 0x80 + v / 64 % 64, 0x80 + v % 64]
  else
    [0xF0 + v / 0x40000, 0x80 + v / 4096 % 64, 0x80 + v / 64 % 64,
      0x80 + v % 64]

/-- The UTF-8 byte sequence of a string (what a host passing valid text
hands across the boundary). -/
def utf8Encode (s : String) : List Nat :=
  (s.data.map (fun c => encodeChar c.toNat)).flatten

/-- Modelled from the spec: the Boundary Runtime's "text marshaling in" —
validate the host-supplied bytes, fail with `EncodingError` when they are
not valid text, otherwise hand the decoded string to the operation. -/
def marshalTextIn (bytes : List Nat) : Except EncodingError String :=
  match decodeUtf8 bytes with
  | some vs => Except.ok (String.mk (vs.map Char.ofNat))
  | none => Except.error EncodingError.invalidUtf8

/-- `greet` as invoked through the boundary on host-supplied bytes:
marshal the text in, then run the operation. -/
def greetFromBytes (bytes : List Nat) : Except EncodingError String :=
  (marshalTextIn bytes).map greet

/-- The module's mutable state between calls: the source declares no
`static` items at all, so the state has no fields. -/
structure ModuleState where

/-- One host→module invocation of an exported operation. -/
inductive CallInput where
  | greetIn : String → CallInput
  | physicsIn : Nat → CallInput
deriving DecidableEq, Repr

/-- The value an exported operation returns to the host. -/
inductive CallOutput where
  | textOut : String → CallOutput
  | scalarOut : Nat → CallOutput
deriving DecidableEq, Repr

/-- A call the module makes back into the host: the only imported
capability is `fn alert(s: &str)`. -/
inductive HostCall where
  | alertOut : String → HostCall
deriving DecidableEq, Repr

/-- One exported-operation call: next module state, returned value, and
the host callbacks performed during the call, read off the two source
function bodies (neither body touches state or calls `alert`). -/
def moduleCall (st : ModuleState) : CallInput → ModuleState × CallOutput × List HostCall
  | CallInput.greetIn n => (st, CallOutput.textOut (greet n), [])
  | CallInput.physicsIn dt =>
      (st, CallOutput.scalarOut (compute_physics_step dt), [])

/-- Run a strictly sequential list of host calls, threading the module
state through. -/
def runCalls (st : ModuleState) : List CallInput → List CallOutput
  | [] => []
  | c :: cs =>
      let r := moduleCall st c
      r.2.1 :: runCalls r.1 cs

/-! ## Helper lemmas -/

/-- Every call leaves the module state unchanged and the state type has no
content, so a run is just a map over the call list. -/
theorem runCalls_eq_map (st : ModuleState) (cs : List CallInput) :
    runCalls st cs = cs.map (fun c => (moduleCall st c).2.1) := by
  induction cs with
  | nil => rfl
  | cons c cs ih => cases c <;> simp [runCalls, moduleCall, ih]

theorem two_pow_23_eq : (2 : Nat) ^ 23 = 8388608 := by norm_num

theorem two_pow_24_eq : (2 : Nat) ^ 24 = 16777216 := by norm_num

theorem two_pow_31_eq : (2 : Nat) ^ 31 = 2147483648 := by norm_num

theorem two_pow_32_eq : (2 : Nat) ^ 32 = 4294967296 := by norm_num

/-- `log2aux` computes the floor of the base-2 logarithm whenever the
fuel bounds the input. -/
theorem log2aux_spec : ∀ (fuel n : Nat), 0 < n → n < 2 ^ fuel →
    2 ^ log2aux fuel n ≤ n ∧ n < 2 ^ (log2aux fuel n + 1) := by
  intro fuel
  induction fuel with
  | zero =>
    intro n h1 h2
    rw [pow_zero] at h2
    omega
  | succ fuel ih =>
    intro n h1 h2
    rw [log2aux]
    by_cases h : 2 ≤ n
    · rw [if_pos h]
      have hp : 2 ^ (fuel + 1) = 2 ^ fuel * 2 := pow_succ 2 fuel
      have hlt : n / 2 < 2 ^ fuel := by omega
      obtain ⟨l, r⟩ := ih (n / 2) (by omega) hlt
      have e1 : 2 ^ (log2aux fuel (n / 2) + 1) =
          2 ^ log2aux fuel (n / 2) * 2 := pow_succ 2 _
      have e2 : 2 ^ (log2aux fuel (n / 2) + 1 + 1) =
          2 ^ (log2aux fuel (n / 2) + 1) * 2 := pow_succ 2 _
      constructor
      · omega
      · omega
    · rw [if_neg h]
      have hn : n = 1 := by omega
      subst hn
      simp

/-- `nlog2` is the floor of the base-2 logarithm for inputs below
`2 ^ 400`. -/
theorem nlog2_spec (n : Nat) (h1 : 0 < n) (h2 : n < 2 ^ 400) :
    2 ^ nlog2 n ≤ n ∧ n < 2 ^ (nlog2 n + 1) :=
  log2aux_spec 400 n h1 h2

/-- Round-to-nearest never exceeds a bound that the exact quotient is
strictly below. -/
theorem rneDiv_le (n d k : Nat) (hd : 0 < d) (h : n < k * d) :
    rneDiv n d ≤ k := by
  have h1 : n / d < k := (Nat.div_lt_iff_lt_mul hd).2 h
  unfold rneDiv
  split <;> omega

/-- `packRounded` emits a well-formed 32-bit pattern. -/
theorem packRounded_lt (s q : Nat) (Q : Int) (hs : s ≤ 1)
    (hq : q < 2 ^ 24) : packRounded s q Q < 2 ^ 32 := by
  unfold packRounded packF32
  have e23 := two_pow_23_eq
  have e24 := two_pow_24_eq
  have e31 := two_pow_31_eq
  have e32 := two_pow_32_eq
  split
  · omega
  · split
    · omega
    · split
      · omega
      · rename_i h0 h1 h2
        have he : (Q + 150).toNat ≤ 254 := by omega
        omega

/-- `encodeRounded` emits a well-formed 32-bit pattern for any rounded
significand of at most `2 ^ 24`. -/
theorem encodeRounded_lt (s q0 : Nat) (Q0 : Int) (hs : s ≤ 1)
    (hq : q0 ≤ 2 ^ 24) : encodeRounded s q0 Q0 < 2 ^ 32 := by
  have e23 := two_pow_23_eq
  have e24 := two_pow_24_eq
  unfold encodeRounded
  split
  · exact packRounded_lt _ _ _ hs (by omega)
  · exact packRounded_lt _ _ _ hs (by omega)

/-- The rounded significand produced inside `roundSigExp` is at most
`2 ^ 24` as soon as the quantum exponent `Q` is at least `E - 23`. -/
theorem roundq_le (P : Nat) (expP Q : Int) (hP : 0 < P) (hP48 : P < 2 ^ 48)
    (hQ : expP + nlog2 P - 23 ≤ Q) :
    (if expP ≤ Q then rneDiv P (2 ^ (Q - expP).toNat)
      else P * 2 ^ ((expP - Q).toNat)) ≤ 2 ^ 24 := by
  obtain ⟨hl, hr⟩ := nlog2_spec P hP (lt_trans hP48 (by norm_num))
  split
  · rename_i hle
    apply rneDiv_le _ _ _ (pow_pos (by norm_num) _)
    have ht : (((Q - expP).toNat : Int)) = Q - expP :=
      Int.toNat_of_nonneg (by omega)
    calc P < 2 ^ (nlog2 P + 1) := hr
      _ ≤ 2 ^ (24 + (Q - expP).toNat) :=
          Nat.pow_le_pow_right (by norm_num) (by omega)
      _ = 2 ^ 24 * 2 ^ ((Q - expP).toNat) := pow_add 2 _ _
  · rename_i hgt
    have ht : (((expP - Q).toNat : Int)) = expP - Q :=
      Int.toNat_of_nonneg (by omega)
    have hS : nlog2 P + 1 + (expP - Q).toNat ≤ 24 := by omega
    have h1 : P * 2 ^ ((expP - Q).toNat) <
        2 ^ (nlog2 P + 1) * 2 ^ ((expP - Q).toNat) :=
      mul_lt_mul_of_pos_right hr (pow_pos (by norm_num) _)
    have h2 : 2 ^ (nlog2 P + 1) * 2 ^ ((expP - Q).toNat) =
        2 ^ (nlog2 P + 1 + (expP - Q).toNat) := (pow_add 2 _ _).symm
    have h3 : (2 : Nat) ^ (nlog2 P + 1 + (expP - Q).toNat) ≤ 2 ^ 24 :=
      Nat.pow_le_pow_right (by norm_num) hS
    omega

/-- `roundSigExp` emits a well-formed 32-bit pattern. -/
theorem roundSigExp_lt (s P : Nat) (expP : Int) (hs : s ≤ 1) (hP : 0 < P)
    (hP48 : P < 2 ^ 48) : roundSigExp s P expP < 2 ^ 32 := by
  simp only [roundSigExp]
  exact encodeRounded_lt _ _ _ hs
    (roundq_le P expP (max (expP + nlog2 P - 23) (-149)) hP hP48
      (le_max_left _ _))

/-- The integral significand of any bit pattern is below `2 ^ 24`. -/
theorem f32sig_lt (b : Nat) : f32sig b < 2 ^ 24 := by
  unfold f32sig f32frac
  have e23 := two_pow_23_eq
  have e24 := two_pow_24_eq
  split <;> omega

/-- The integral significand of a nonzero bit pattern is positive. -/
theorem f32sig_pos (b : Nat) (h : ¬ f32isZero b = true) : 0 < f32sig b := by
  unfold f32isZero at h
  unfold f32sig
  have e23 := two_pow_23_eq
  by_cases he : f32exp b = 0
  · rw [if_pos he]
    by_cases hf : f32frac b = 0
    · exact absurd (by rw [he, hf]; rfl) h
    · omega
  · rw [if_neg he]
    omega

/-- `fmul32` always emits a well-formed 32-bit pattern. -/
theorem fmul32_lt (a b : Nat) : fmul32 a b < 2 ^ 32 := by
  have hs : (f32sign a + f32sign b) % 2 ≤ 1 := by omega
  have e32 := two_pow_32_eq
  simp only [fmul32]
  split
  · norm_num [qNaN]
  · split
    · split
      · norm_num [qNaN]
      · unfold packF32
        omega
    · split
      · unfold packF32
        omega
      · rename_i h1 h2 h3
        apply roundSigExp_lt _ _ _ hs
        · exact Nat.mul_pos
            (f32sig_pos a (fun hz => h3 (Or.inl hz)))
            (f32sig_pos b (fun hz => h3 (Or.inr hz)))
        · calc f32sig a * f32sig b < 2 ^ 24 * 2 ^ 24 :=
              Nat.mul_lt_mul'' (f32sig_lt a) (f32sig_lt b)
            _ = 2 ^ 48 := by norm_num

/-- A character's scalar value is a valid unicode scalar: below the
surrogate range or strictly between it and 0x110000. -/
theorem char_toNat_valid (c : Char) :
    c.toNat < 0xD800 ∨ (0xDFFF < c.toNat ∧ c.toNat < 0x110000) := c.valid

/-- Decoding the UTF-8 bytes of one valid scalar value at the head of a
byte stream yields that scalar followed by the decode of the rest. -/
theorem decode_encodeChar (v : Nat)
    (hv : v < 0xD800 ∨ (0xDFFF < v ∧ v < 0x110000)) (rest : List Nat) :
    decodeUtf8 (encodeChar v ++ rest) = (decodeUtf8 rest).map (v :: ·) := by
  unfold decodeUtf8
  by_cases h1 : v < 0x80
  · simp only [encodeChar, if_pos h1, List.cons_append, List.nil_append]
    rw [utf8Go, if_pos h1]
  · by_cases h2 : v < 0x800
    · simp only [encodeChar, if_neg h1, if_pos h2, List.cons_append,
        List.nil_append]
      rw [utf8Go, if_neg (by omega), if_pos (by omega :
        0xC0 ≤ 0xC0 + v / 64 ∧ 0xC0 + v / 64 ≤ 0xDF)]
      rw [utf8Go, if_pos (by omega :
        0x80 ≤ 0x80 + v % 64 ∧ 0x80 + v % 64 ≤ 0xBF)]
      rw [if_pos rfl, if_pos (by omega)]
      have hval : (0xC0 + v / 64 - 0xC0) * 64 + (0x80 + v % 64 - 0x80) = v := by
        omega
      rw [hval]
    · by_cases h3 : v < 0x10000
      · simp only [encodeChar, if_neg h1, if_neg h2, if_pos h3,
          List.cons_append, List.nil_append]
        rw [utf8Go, if_neg (by omega), if_neg (by omega), if_pos (by omega :
          0xE0 ≤ 0xE0 + v / 4096 ∧ 0xE0 + v / 4096 ≤ 0xEF)]
        rw [utf8Go, if_pos (by omega :
          0x80 ≤ 0x80 + v / 64 % 64 ∧ 0x80 + v / 64 % 64 ≤ 0xBF)]
        rw [if_neg (by omega : ¬(1 = 0))]
        rw [utf8Go, if_pos (by omega :
          0x80 ≤ 0x80 + v % 64 ∧ 0x80 + v % 64 ≤ 0xBF)]
        rw [if_pos rfl, if_pos (by omega)]
        have hval : ((0xE0 + v / 4096 - 0xE0) * 64 +
              (0x80 + v / 64 % 64 - 0x80)) * 64 + (0x80 + v % 64 - 0x80) = v := by
          omega
        rw [hval]
      · simp only [encodeChar, if_neg h1, if_neg h2, if_neg h3,
          List.cons_append, List.nil_append]
        have h4 : v < 0x110000 := by omega
        rw [utf8Go, if_neg (by omega), if_neg (by omega), if_neg (by omega),
          if_pos (by omega : 0xF0 ≤ 0xF0 + v / 0x40000 ∧
            0xF0 + v / 0x40000 ≤ 0xF7)]
        rw [utf8Go, if_pos (by omega :
          0x80 ≤ 0x80 + v / 4096 % 64 ∧ 0x80 + v / 4096 % 64 ≤ 0xBF)]
        rw [if_neg (by omega : ¬(2 = 0))]
        rw [utf8Go, if_pos (by omega :
          0x80 ≤ 0x80 + v / 64 % 64 ∧ 0x80 + v / 64 % 64 ≤ 0xBF)]
        rw [if_neg (by omega : ¬(1 = 0))]
        rw [utf8Go, if_pos (by omega :
          0x80 ≤ 0x80 + v % 64 ∧ 0x80 + v % 64 ≤ 0xBF)]
        rw [if_pos rfl, if_pos (by omega)]
        have hval : (((0xF0 + v / 0x40000 - 0xF0) * 64 +
              (0x80 + v / 4096 % 64 - 0x80)) * 64 +
              (0x80 + v / 64 % 64 - 0x80)) * 64 + (0x80 + v % 64 - 0x80) = v := by
          omega
        rw [hval]

/-- Decoding the UTF-8 encoding of a string prepended to a byte stream
recovers the string's scalar values followed by the decode of the rest. -/
theorem decode_utf8Encode_append (l : List Char) (rest : List Nat) :
    decodeUtf8 ((l.map (fun c => encodeChar c.toNat)).flatten ++ rest) =
      (decodeUtf8 rest).map (fun vs => l.map Char.toNat ++ vs) := by
  induction l with
  | nil =>
    simp only [List.map_nil, List.flatten_nil, List.nil_append]
    cases decodeUtf8 rest <;> rfl
  | cons c l ih =>
    simp only [List.map_cons, List.flatten_cons, List.append_assoc]
    rw [decode_encodeChar c.toNat (char_toNat_valid c), ih]
    cases decodeUtf8 rest <;> rfl

/-- Mapping a character list through scalar values and back is the
identity. -/
theorem map_ofNat_toNat (l : List Char) :
    (l.map Char.toNat).map Char.ofNat = l := by
  induction l with
  | nil => rfl
  | cons c l ih => simp [ih]

/-- Marshaling in the UTF-8 bytes of any string succeeds and recovers the
string exactly. -/
theorem marshalTextIn_roundtrip (s : String) :
    marshalTextIn (utf8Encode s) = Except.ok s := by
  unfold marshalTextIn utf8Encode
  have h0 : (s.data.map (fun c => encodeChar c.toNat)).flatten =
      (s.data.map (fun c => encodeChar c.toNat)).flatten ++ [] :=
    (List.append_nil _).symm
  have hnil : decodeUtf8 [] = some [] := rfl
  rw [h0, decode_utf8Encode_append, hnil]
  simp only [Option.map_some', List.append_nil]
  rw [map_ofNat_toNat]

/-! ## Claim theorems -/

/-- C1: for every finite 32-bit float `dt`, `compute_physics_step dt` is
exactly the IEEE-754 single-precision product of `dt` and the binary32
rounding of the decimal 9.81; in particular it maps `0.0` to `0.0` and
`1.0` to the 9.81 constant (bit pattern `0x411CF5C3`). -/
theorem compute_physics_step_exact_mul :
    (∀ dt : Nat, f32isFinite dt = true →
      compute_physics_step dt = fmul32 dt (roundPosRatToF32 981 100)) ∧
    roundPosRatToF32 981 100 = 0x411CF5C3 ∧
    compute_physics_step 0x00000000 = 0x00000000 ∧
    compute_physics_step 0x3F800000 = roundPosRatToF32 981 100 :=
  ⟨fun _ _ => rfl, by decide, by decide, by decide⟩

/-- Witness for C1 at `dt = 1.0` (bit pattern `0x3F800000`). -/
theorem compute_physics_step_exact_mul_witness :
    f32isFinite 0x3F800000 = true ∧
    compute_physics_step 0x3F800000 = fmul32 0x3F800000 (roundPosRatToF32 981 100) :=
  ⟨by decide, compute_physics_step_exact_mul.1 0x3F800000 (by decide)⟩

/-- C2: `greet name` is exactly `"Hello, "` ++ `name` ++
`"! This message is computed in Rust 🦀"`, the input substituted
verbatim; in particular `greet ""` is
`"Hello, ! This message is computed in Rust 🦀"`. -/
theorem greet_format :
    (∀ name : String,
      greet name =
        "Hello, " ++ name ++ "! This message is computed in Rust 🦀") ∧
    greet "" = "Hello, ! This message is computed in Rust 🦀" :=
  ⟨fun _ => rfl, by decide⟩

/-- C3: `greet name` contains `name` as a contiguous substring with every
character preserved (its character list is exactly prefix ++ name ++ rest,
for any length of `name`), and ends with the fixed suffix
"This message is computed in Rust 🦀". -/
theorem greet_substring_and_suffix :
    ∀ name : String,
      (greet name).data =
        ("Hello, ").data ++ name.data ++
          ("! This message is computed in Rust 🦀").data ∧
      List.IsSuffix ("This message is computed in Rust 🦀").data
        (greet name).data := by
  intro name
  refine ⟨rfl, ?_⟩
  have h1 : List.IsSuffix ("This message is computed in Rust 🦀").data
      ("! This message is computed in Rust 🦀").data :=
    ⟨("! ").data, by decide⟩
  have h2 : List.IsSuffix ("! This message is computed in Rust 🦀").data
      ((greet name).data) :=
    ⟨("Hello, ").data ++ name.data, rfl⟩
  exact h1.trans h2

/-- C4: when the host-supplied bytes are not valid text, `greet` through
the boundary raises `EncodingError` as a call failure (it never reaches
the formatting step, so no corrupted or truncated greeting is produced);
on the bytes of any valid text it succeeds with the exact greeting and
never raises the error. -/
theorem greet_encoding_error :
    (∀ bytes : List Nat, decodeUtf8 bytes = none →
      greetFromBytes bytes = Except.error EncodingError.invalidUtf8) ∧
    (∀ s : String, greetFromBytes (utf8Encode s) = Except.ok (greet s)) := by
  constructor
  · intro bytes h
    unfold greetFromBytes marshalTextIn
    rw [h]
    rfl
  · intro s
    unfold greetFromBytes
    rw [marshalTextIn_roundtrip]
    rfl

/-- Witness for C4: the byte `0xFF` is rejected with `EncodingError`; the
bytes of `"🦀"` round-trip into the greeting. -/
theorem greet_encoding_error_witness :
    greetFromBytes [0xFF] = Except.error EncodingError.invalidUtf8 ∧
    greetFromBytes (utf8Encode "🦀") = Except.ok (greet "🦀") :=
  ⟨greet_encoding_error.1 [0xFF] rfl, greet_encoding_error.2 "🦀"⟩

/-- C5: `compute_physics_step` is deterministic across any sequence of
calls: any two calls carrying the same `dt` produce the same output,
namely `compute_physics_step dt`, independent of their position. -/
theorem compute_physics_step_deterministic :
    ∀ (st : ModuleState) (cs : List CallInput) (i j dt : Nat),
      cs[i]? = some (CallInput.physicsIn dt) →
      cs[j]? = some (CallInput.physicsIn dt) →
      (runCalls st cs)[i]? =
        some (CallOutput.scalarOut (compute_physics_step dt)) ∧
      (runCalls st cs)[i]? = (runCalls st cs)[j]? := by
  intro st cs i j dt hi hj
  rw [runCalls_eq_map, List.getElem?_map, hi]
  rw [List.getElem?_map, hj]
  exact ⟨rfl, rfl⟩

/-- Witness for C5: two identical physics calls in one run. -/
theorem compute_physics_step_deterministic_witness :
    (runCalls ModuleState.mk
        [CallInput.physicsIn 0, CallInput.physicsIn 0])[0]? =
      some (CallOutput.scalarOut (compute_physics_step 0)) ∧
    (runCalls ModuleState.mk
        [CallInput.physicsIn 0, CallInput.physicsIn 0])[0]? =
      (runCalls ModuleState.mk
        [CallInput.physicsIn 0, CallInput.physicsIn 0])[1]? :=
  compute_physics_step_deterministic ModuleState.mk
    [CallInput.physicsIn 0, CallInput.physicsIn 0] 0 1 0 rfl rfl

/-- C6: `compute_physics_step` is total over all 32-bit float inputs: for
every 32-bit pattern it returns a result (a well-formed 32-bit pattern)
and has no failure mode — its type through the boundary carries no error
case, since scalar marshaling has none. -/
theorem compute_physics_step_total :
    ∀ dt : Nat, dt < 2 ^ 32 → compute_physics_step dt < 2 ^ 32 :=
  fun dt _ => fmul32_lt dt grav

/-- Witness for C6 at `dt = 1.0` (bit pattern `0x3F800000`). -/
theorem compute_physics_step_total_witness :
    compute_physics_step 0x3F800000 < 2 ^ 32 :=
  compute_physics_step_total 0x3F800000 (by norm_num)

/-- C7: the module is stateless between calls — every call returns the
state unchanged, the call's result (value and host-call trace) depends
only on the call's arguments, and a whole run is a pointwise map of the
operations over the inputs. -/
theorem module_stateless :
    (∀ (st : ModuleState) (c : CallInput), (moduleCall st c).1 = st) ∧
    (∀ (st st' : ModuleState) (c : CallInput),
      (moduleCall st c).2 = (moduleCall st' c).2) ∧
    (∀ (st : ModuleState) (cs : List CallInput),
      runCalls st cs = cs.map (fun c => (moduleCall ModuleState.mk c).2.1)) :=
  ⟨fun st c => by cases c <;> rfl,
   fun st st' c => by cases c <;> rfl,
   fun st cs => runCalls_eq_map st cs⟩

/-- C8: on non-finite inputs `compute_physics_step` follows IEEE-754
multiplication by 9.81: every NaN input yields a NaN, `+∞` yields `+∞`
and `-∞` yields `-∞`. -/
theorem compute_physics_step_nonfinite :
    (∀ dt : Nat, f32isNaN dt = true →
      f32isNaN (compute_physics_step dt) = true) ∧
    compute_physics_step 0x7F800000 = 0x7F800000 ∧
    compute_physics_step 0xFF800000 = 0xFF800000 := by
  refine ⟨?_, by decide, by decide⟩
  intro dt h
  show f32isNaN (fmul32 dt grav) = true
  simp only [fmul32]
  rw [if_pos (Or.inl h)]
  decide

/-- Witness for C8 at the canonical quiet NaN input. -/
theorem compute_physics_step_nonfinite_witness :
    f32isNaN 0x7FC00000 = true ∧
    f32isNaN (compute_physics_step 0x7FC00000) = true :=
  ⟨by decide, compute_physics_step_nonfinite.1 0x7FC00000 (by decide)⟩

/-- C9: `greet` is injective — equal greetings come from equal names,
because the output is the name between a fixed prefix and suffix. -/
theorem greet_injective : ∀ a b : String, greet a = greet b → a = b := by
  intro a b h
  have hd : ("Hello, ").data ++
        (a.data ++ ("! This message is computed in Rust 🦀").data) =
      ("Hello, ").data ++
        (b.data ++ ("! This message is computed in Rust 🦀").data) := by
    have h' := congrArg String.data h
    simpa [greet, List.append_assoc] using h'
  exact String.ext
    (List.append_cancel_right (List.append_cancel_left hd))

/-- Witness for C9 at two equal inputs. -/
theorem greet_injective_witness : "lipa" = "lipa" :=
  greet_injective "lipa" "lipa" rfl

/-- C10: no exported operation ever invokes the imported `alert`
callback — the host-call trace of every call is empty. -/
theorem alert_never_called :
    ∀ (st : ModuleState) (c : CallInput), (moduleCall st c).2.2 = [] := by
  intro st c
  cases c <;> rfl

end LipaEngine
